import Mathlib

/-!
Verification development for the DollarDex log indexer
(`scripts/indexer.mjs`) and its read-only query server (`scripts/api.mjs`).

JavaScript strings are modelled as `List Char`, JS numbers on the integer
ranges this program manipulates as `Nat`/`Int`, SQLite rows as a Lean
structure, the `logs` table as a `List Row` with `INSERT OR IGNORE`
semantics keyed by `(tx_hash, log_index)`, and the unbounded
`while`/`for` loops of the indexer as fuel-indexed recursions where
`none` means the fuel ran out before the loop finished.

The ethers `Interface.parseLog` call is outside the repository; it is
modelled as an abstract `parse` function returning `Option ParsedLog`
(`none` covers both the `null` result for an unknown topic0 and any
exception, both of which the `try/catch` in `decodeLog` turns into the
decode-failure result).
-/

namespace DollarDex

/-! ### JS numeric string parsing -/

/-- Hexadecimal digit test, as accepted by JS `parseInt(s, 16)`. -/
def isHexDigitChar (c : Char) : Bool :=
  c.isDigit || ('a' ≤ c && c ≤ 'f') || ('A' ≤ c && c ≤ 'F')

/-- Numeric value of one hexadecimal digit. -/
def hexDigitVal (c : Char) : Nat :=
  if c.isDigit then c.toNat - '0'.toNat
  else if 'a' ≤ c && c ≤ 'f' then c.toNat - 'a'.toNat + 10
  else c.toNat - 'A'.toNat + 10

/-- Value of a string of hexadecimal digits (most significant first). -/
def hexVal (l : List Char) : Nat :=
  l.foldl (fun a c => a * 16 + hexDigitVal c) 0

/-- Value of a string of decimal digits (most significant first). -/
def decVal (l : List Char) : Nat :=
  l.foldl (fun a c => a * 10 + (c.toNat - '0'.toNat)) 0

/-- JS `parseInt(s, 16)`: strips an optional `0x`/`0X` prefix, then parses
the longest prefix of hexadecimal digits; `none` models `NaN` (no digit). -/
def parseIntHex (s : List Char) : Option Nat :=
  let body := match s with
    | '0' :: 'x' :: r => r
    | '0' :: 'X' :: r => r
    | r => r
  let ds := body.takeWhile isHexDigitChar
  if ds.isEmpty then none else some (hexVal ds)

/-- JS `Number(s)` restricted to the string shapes this program feeds it:
the empty string (value `0`), a `0x`-prefixed hex string, or a string of
decimal digits.  `none` models `NaN`. -/
def jsNumber (s : List Char) : Option Nat :=
  match s with
  | [] => some 0
  | '0' :: 'x' :: r =>
      if !r.isEmpty && r.all isHexDigitChar then some (hexVal r) else none
  | _ => if s.all Char.isDigit then some (decVal s) else none

/-- JS `Math.floor(Number(s))` for the query-parameter shapes `clampInt`
can receive: empty string, `0x` hex, or an optionally negative decimal
numeral with an optional fractional part.  `none` models `NaN`. -/
def jsNumberFloored (s : List Char) : Option Int :=
  match s with
  | [] => some 0
  | '0' :: 'x' :: r =>
      if !r.isEmpty && r.all isHexDigitChar then some ((hexVal r : Nat) : Int) else none
  | _ =>
    let neg : Bool := s.head? = some '-'
    let body := if neg then s.drop 1 else s
    let ip := body.takeWhile Char.isDigit
    let rest := body.drop ip.length
    if ip.isEmpty then none
    else
      match rest with
      | [] => some (if neg then -(decVal ip : Int) else (decVal ip : Int))
      | '.' :: fr =>
          if fr.all Char.isDigit then
            let hasFrac := fr.any (fun c => c ≠ '0')
            some (if neg then (if hasFrac then -(decVal ip : Int) - 1 else -(decVal ip : Int))
                  else (decVal ip : Int))
          else none
      | _ => none

/-! ### Field normalization (indexer.mjs lines 266-282) -/

/-- `parseInt(String(lg.blockNumber || "0"), 16) || Number(lg.blockNumber) || 0`. -/
def normBlockNumber (s : List Char) : Nat :=
  let s0 := if s.isEmpty then ['0'] else s
  match parseIntHex s0 with
  | some (n + 1) => n + 1
  | _ =>
    match jsNumber s with
    | some (n + 1) => n + 1
    | _ => 0

/-- `parseInt(String(lg.logIndex || "0"), 16) || 0`. -/
def normLogIndex (s : List Char) : Nat :=
  let s0 := if s.isEmpty then ['0'] else s
  match parseIntHex s0 with
  | some n => n
  | none => 0

/-- `parseInt(String(lg.transactionIndex || "0"), 16) || null` (note: a
parsed value of `0` is falsy in JS, so it is stored as `null`). -/
def normTxIndex (s : List Char) : Option Nat :=
  let s0 := if s.isEmpty then ['0'] else s
  match parseIntHex s0 with
  | some (n + 1) => some (n + 1)
  | _ => none

/-- `t.startsWith("0x") ? parseInt(t, 16) : Number(t)`, with the
`Number.isFinite` check mapping `NaN` to `null`; the outer `Option` is the
`lg.timeStamp != null` guard. -/
def normTimeStamp (s : Option (List Char)) : Option Nat :=
  match s with
  | none => none
  | some t =>
    match t with
    | '0' :: 'x' :: _ => parseIntHex t
    | _ => jsNumber t

/-! ### Event decoding (indexer.mjs lines 161-174) -/

/-- A JS value as it appears among the decoded event arguments. -/
inductive JsVal where
  | vStr (s : String)
  | vBigInt (i : Int)
  | vNum (n : Int)
  | vBool (b : Bool)
deriving DecidableEq, Repr

/-- Result of the external ethers `Interface.parseLog`: the event name and
`Object.entries(parsed.args)` (which contains both positional `"0"`,
`"1"`, ... entries and named entries). -/
structure ParsedLog where
  name : String
  args : List (String × JsVal)

/-- Matches `/^\d+$/`: a non-empty all-digit key (a positional entry). -/
def isDigitKey (k : String) : Bool :=
  !k.data.isEmpty && k.data.all Char.isDigit

/-- `typeof v === "bigint" ? v.toString() : v` — a bigint becomes its
decimal string; every other value is stored unchanged. -/
def convertArg (v : JsVal) : JsVal :=
  match v with
  | .vBigInt i => .vStr (toString i)
  | v => v

/-- JS object assignment `o[k] = v`: overwrite the entry for `k` if
present, otherwise append it. -/
def objSet (o : List (String × JsVal)) (k : String) (v : JsVal) : List (String × JsVal) :=
  if o.any (fun p => p.1 = k) then
    o.map (fun p => if p.1 = k then (k, v) else p)
  else o ++ [(k, v)]

/-- The `argsObj` loop of `decodeLog`: skip positional keys, convert
bigints to decimal strings, assign into a fresh object. -/
def buildArgsObj (args : List (String × JsVal)) : List (String × JsVal) :=
  args.foldl (fun acc p => if isDigitKey p.1 then acc else objSet acc p.1 (convertArg p.2)) []

/-- Result of `decodeLog`: the `JSON.stringify(argsObj)` string is
modelled by the (injectively encodable) `argsObj` association list itself. -/
structure DecodeResult where
  eventName : Option String
  decodedJson : Option (List (String × JsVal))
deriving DecidableEq, Repr

/-- `decodeLog` (indexer.mjs 161-174): a `try/catch` around
`iface.parseLog`; any parse failure (unknown topic0, argument mismatch,
thrown error) yields the `(null, null)` result. -/
def decodeLog (parse : List String → String → Option ParsedLog)
    (topics : List String) (data : String) : DecodeResult :=
  match parse topics data with
  | some p => { eventName := some p.name, decodedJson := some (buildArgsObj p.args) }
  | none => { eventName := none, decodedJson := none }

/-! ### Raw logs and row construction (indexer.mjs 266-299) -/

/-- A raw log object from the upstream API, with exactly the fields the
indexer consumes.  String-typed fields use `""`/`none` for an absent
value where JS treats both identically (falsy). -/
structure RawLog where
  topics : Option (List String)
  data : String
  blockNumber : List Char
  logIndex : List Char
  transactionIndex : List Char
  transactionHash : String
  blockHash : String
  address : String
  timeStamp : Option (List Char)
deriving DecidableEq, Repr

/-- One row of the `logs` table (`topics_json`/`decoded_json` are modelled
by the encoded values themselves rather than their JSON text). -/
structure Row where
  block_number : Nat
  block_hash : Option String
  tx_hash : String
  tx_index : Option Nat
  log_index : Nat
  address : String
  event_name : Option String
  topic0 : Option String
  topics_json : List String
  data : String
  decoded_json : Option (List (String × JsVal))
  timestamp : Option Nat
deriving DecidableEq, Repr

/-- `Array.isArray(lg.topics) ? lg.topics : []`. -/
def normTopics (t : Option (List String)) : List String := t.getD []

/-- `String(lg.data || "0x")`. -/
def normData (d : String) : String := if d = "" then "0x" else d

/-- `topics?.[0] || null` (an empty first topic is falsy, hence `null`). -/
def topic0Of (topics : List String) : Option String :=
  match topics.head? with
  | some t => if t = "" then none else some t
  | none => none

/-- The row built for one raw log in `indexRange` (lines 266-299). -/
def mkRow (parse : List String → String → Option ParsedLog)
    (contractAddress : String) (lg : RawLog) : Row :=
  let topics := normTopics lg.topics
  let data := normData lg.data
  let decoded := decodeLog parse topics data
  { block_number := normBlockNumber lg.blockNumber
    block_hash := if lg.blockHash = "" then none else some lg.blockHash
    tx_hash := lg.transactionHash
    tx_index := normTxIndex lg.transactionIndex
    log_index := normLogIndex lg.logIndex
    address := if lg.address = "" then contractAddress else lg.address
    event_name := decoded.eventName
    topic0 := topic0Of topics
    topics_json := topics
    data := data
    decoded_json := decoded.decodedJson
    timestamp := normTimeStamp lg.timeStamp }

/-! ### The store (indexer.mjs 84-98, 177-189) -/

/-- The `logs` table in insertion order. -/
abbrev Store := List Row

/-- The natural key `PRIMARY KEY (tx_hash, log_index)`. -/
def rowKey (r : Row) : String × Nat := (r.tx_hash, r.log_index)

/-- Whether a row with the given primary key is present. -/
def hasKey (st : Store) (k : String × Nat) : Bool :=
  st.any (fun r => rowKey r = k)

/-- `INSERT OR IGNORE`: a duplicate of an existing primary key is
silently dropped, never an overwrite, never an error. -/
def insertRow (st : Store) (r : Row) : Store :=
  if hasKey st (rowKey r) then st else st ++ [r]

/-- `insertMany` (the `db.transaction` over `insertLogStmt.run`). -/
def insertMany (st : Store) (rs : List Row) : Store :=
  rs.foldl insertRow st

/-- Number of stored rows with the given primary key. -/
def countKey (st : Store) (k : String × Nat) : Nat :=
  (st.filter (fun r => rowKey r = k)).length

/-- The store invariant: at most one row per primary key. -/
def dedupInv (st : Store) : Prop :=
  ∀ k, countKey st k ≤ 1

/-! ### Adaptive range scanning (indexer.mjs 306-338) -/

/-- Outcome of one `getLogsFromBscScan` call as seen by
`indexRangeAdaptive`: a raw log list, or a thrown error (rate limit,
transport failure, error-ish response). -/
inductive FetchOutcome where
  | ok (raws : List RawLog)
  | err

/-- Window sizing configuration: `CHUNK_MAX`, `MIN_CHUNK`, `OVERLAP`. -/
structure ScanCfg where
  chunkMax : Nat
  minChunk : Nat
  overlap : Nat
deriving DecidableEq, Repr

/-- The environment of the indexer: the abstract ABI decoder, the
configured contract address, and the upstream response for the `n`-th
request of a pass to the window `[fromBlock, toBlock]`. -/
structure Env where
  parse : List String → String → Option ParsedLog
  contractAddress : String
  oracle : Nat → Nat → Nat → FetchOutcome

/-- Window growth on success:
`if (step < CHUNK_MAX) step = Math.min(CHUNK_MAX, Math.floor(step * 1.35))`. -/
def nextStepSuccess (cfg : ScanCfg) (step : Nat) : Nat :=
  if step < cfg.chunkMax then min cfg.chunkMax (step * 135 / 100) else step

/-- Window shrink on failure: `step = Math.max(MIN_CHUNK, Math.floor(step / 2))`. -/
def nextStepFailure (cfg : ScanCfg) (step : Nat) : Nat :=
  max cfg.minChunk (step / 2)

/-- Window size after `k` consecutive failed fetches starting from `step`. -/
def stepAfterFailures (cfg : ScanCfg) : Nat → Nat → Nat
  | 0, step => step
  | k + 1, step => stepAfterFailures cfg k (nextStepFailure cfg step)

/-- The `while (start <= toBlock)` loop of `indexRangeAdaptive`, with
fuel; returns the final store and the list of successfully fetched
windows `(start, end)` in order.  `t` counts upstream requests; on
failure the cursor `start` is retried unchanged with a smaller step. -/
def scanGo (env : Env) (cfg : ScanCfg) (toBlock : Nat) :
    Nat → Nat → Nat → Nat → Store → Option (Store × List (Nat × Nat))
  | 0, _, _, _, _ => none
  | fuel + 1, t, start, step, st =>
    if start ≤ toBlock then
      let e := min (start + step - 1) toBlock
      match env.oracle t start e with
      | .ok raws =>
          let st1 := insertMany st (raws.map (mkRow env.parse env.contractAddress))
          match scanGo env cfg toBlock fuel (t + 1) (e + 1) (nextStepSuccess cfg step) st1 with
          | some (stf, ws) => some (stf, (start, e) :: ws)
          | none => none
      | .err => scanGo env cfg toBlock fuel (t + 1) start (nextStepFailure cfg step) st
    else some (st, [])

/-- `indexRangeAdaptive(fromBlock, toBlock)`: initial step
`Math.min(CHUNK_MAX, toBlock - fromBlock + 1)`. -/
def scanRange (env : Env) (cfg : ScanCfg) (fuel fromBlock toBlock : Nat) (st : Store) :
    Option (Store × List (Nat × Nat)) :=
  scanGo env cfg toBlock fuel 0 fromBlock (min cfg.chunkMax (toBlock + 1 - fromBlock)) st

/-! ### The sync pass (indexer.mjs 341-371) -/

/-- The persisted state: the `logs` table and the `last_block` meta key. -/
structure IndexState where
  logs : Store
  lastBlock : Nat
deriving DecidableEq, Repr

/-- The `for (start = from; start <= head; start += CHUNK_MAX)` loop of
`syncOnce`: each outer window is scanned adaptively and then
`setMeta("last_block", end + 1)` persists the checkpoint. -/
def syncOuter (env : Env) (cfg : ScanCfg) (head : Nat) :
    Nat → Nat → IndexState → Option IndexState
  | 0, _, _ => none
  | fuel + 1, start, st =>
    if start ≤ head then
      let e := min (start + cfg.chunkMax - 1) head
      match scanRange env cfg fuel start e st.logs with
      | some (logs1, _) => syncOuter env cfg head fuel (start + cfg.chunkMax) ⟨logs1, e + 1⟩
      | none => none
    else some st

/-- One sync pass: `from = Math.max(0, last - OVERLAP)`; if `from > head`
the pass is a no-op, otherwise the outer loop runs to `head`. -/
def syncOnce (env : Env) (cfg : ScanCfg) (head fuel : Nat) (st : IndexState) :
    Option IndexState :=
  let frm := st.lastBlock - cfg.overlap
  if head < frm then some st else syncOuter env cfg head fuel frm st

/-- A sequence of sync passes (watch mode), one observed chain head per
pass. -/
def runPasses (env : Env) (cfg : ScanCfg) (fuel : Nat) :
    List Nat → IndexState → Option IndexState
  | [], st => some st
  | h :: hs, st =>
    match syncOnce env cfg h fuel st with
    | some st1 => runPasses env cfg fuel hs st1
    | none => none

/-! ### Ground-truth chain content, for the checkpoint/durability claims -/

/-- All logs of the blocks `fromBlock..toBlock` of an abstract chain. -/
def chainRange (chain : Nat → List RawLog) (fromBlock toBlock : Nat) : List RawLog :=
  (List.range' fromBlock (toBlock + 1 - fromBlock)).flatMap chain

/-- An upstream oracle is honest for `chain` when every successful window
response is exactly the chain logs of that window. -/
def honest (env : Env) (chain : Nat → List RawLog) : Prop :=
  ∀ t s e l, env.oracle t s e = .ok l → l = chainRange chain s e

/-- Every log of every block below the checkpoint has been durably
inserted (its primary key is present in the store). -/
def upToDate (env : Env) (chain : Nat → List RawLog) (st : IndexState) : Prop :=
  ∀ b, b < st.lastBlock → ∀ r ∈ chain b,
    hasKey st.logs (rowKey (mkRow env.parse env.contractAddress r)) = true

/-- The successful windows `ws` tile `[lo, hi]` exactly: consecutive,
gap-free, starting at `lo` and ending at `hi`. -/
def covers : Nat → Nat → List (Nat × Nat) → Bool
  | lo, hi, [] => decide (hi < lo)
  | lo, hi, (a, b) :: ws =>
      decide (a = lo) && decide (a ≤ b) && decide (b ≤ hi) && covers (b + 1) hi ws

/-! ### The query server (api.mjs 51-55, 69-94, 121-149) -/

/-- Descending `(block_number, log_index)` comparison used by the
`ORDER BY block_number DESC, log_index DESC` queries. -/
def latestLe (a b : Row) : Bool :=
  decide (b.block_number < a.block_number ∨
    (b.block_number = a.block_number ∧ b.log_index ≤ a.log_index))

/-- Insert a row into a list already sorted by `latestLe`. -/
def insertByLatest (r : Row) : List Row → List Row
  | [] => [r]
  | a :: l => if latestLe r a then r :: a :: l else a :: insertByLatest r l

/-- The `ORDER BY block_number DESC, log_index DESC` sort (any sorting
algorithm models SQL ordering; ties are unspecified in SQL). -/
def sortByLatest : List Row → List Row
  | [] => []
  | r :: l => insertByLatest r (sortByLatest l)

/-- `qLatestDeposits`: Deposit rows, newest first, `LIMIT n`. -/
def queryLatest (st : Store) (n : Nat) : List Row :=
  (sortByLatest (st.filter (fun r => decide (r.event_name = some "Deposit")))).take n

/-- `qEventsByName`: rows of one event name, newest first, `LIMIT n`. -/
def queryByEventName (st : Store) (name : String) (n : Nat) : List Row :=
  (sortByLatest (st.filter (fun r => decide (r.event_name = some name)))).take n

/-- `clampInt(v, def, min, max)` (api.mjs 51-55); `v = none` models a
missing query parameter (`Number(undefined)` is `NaN`). -/
def clampInt (v : Option (List Char)) (d lo hi : Int) : Int :=
  match v with
  | none => d
  | some s =>
    match jsNumberFloored s with
    | none => d
    | some n => max lo (min hi n)

/-- Effective limit of `GET /api/deposits` (api.mjs 122). -/
def depositsLimit (v : Option (List Char)) : Int := clampInt v 18 1 200

/-- Effective limit of `GET /api/events` (api.mjs 149). -/
def eventsLimit (v : Option (List Char)) : Int := clampInt v 100 1 500

/-- Rows served by `GET /api/deposits`. -/
def depositsRows (st : Store) (v : Option (List Char)) : List Row :=
  queryLatest st (depositsLimit v).toNat

/-- Rows served by `GET /api/events?name=...`. -/
def eventsRows (st : Store) (name : String) (v : Option (List Char)) : List Row :=
  queryByEventName st name (eventsLimit v).toNat

/-! ### Concrete fixtures used in witnesses and counterexamples -/

/-- An environment with an empty ABI and an upstream that always answers
with an empty log list. -/
def trivEnv : Env := ⟨fun _ _ => none, "0xC", fun _ _ _ => .ok []⟩

/-- An upstream that rate-limits exactly the windows wider than 200
blocks (the literal scenario of the spec), otherwise returns no logs. -/
def scenarioEnv : Env :=
  ⟨fun _ _ => none, "0xC", fun _ s e => if e + 1 - s ≤ 200 then .ok [] else .err⟩

/-- An upstream that rate-limits every window wider than 50 blocks. -/
def stuckEnv : Env :=
  ⟨fun _ _ => none, "0xC", fun _ s e => if e + 1 - s ≤ 50 then .ok [] else .err⟩

/-- The successful windows of the literal spec scenario over
`[1000, 1999]` with max window 500, min window 200, threshold 200. -/
def scenarioWins : List (Nat × Nat) :=
  [(1000, 1199), (1200, 1399), (1400, 1599), (1600, 1799), (1800, 1999)]

/-- A stored Deposit row at the given block number and log index. -/
def depRow (bn li : Nat) (tx : String) : Row :=
  ⟨bn, none, tx, none, li, "0xC", some "Deposit", none, [], "0x", none, none⟩

/-- The store of the literal ordering scenario: Deposit events at
(block 100, logIndex 0), (100, 1), (105, 0). -/
def depositScenario : Store :=
  [depRow 100 0 "0xt1", depRow 100 1 "0xt2", depRow 105 0 "0xt3"]

/-- A raw log whose topic0 is not in the configured ABI. -/
def unknownLog : RawLog :=
  ⟨some [ "0xunknownsig" ], "0x", [ '0', 'x', '6', '4' ], [ '0', 'x', '1' ],
    [ '0', 'x', '0' ], "0xtxhash", "", "0xC", none⟩

/-! ## Store lemmas -/

theorem countKey_le_length (st : Store) (k : String × Nat) :
    countKey st k ≤ st.length :=
  List.length_filter_le _ _

theorem countKey_pos_of_hasKey {st : Store} {k : String × Nat}
    (h : hasKey st k = true) : 1 ≤ countKey st k := by
  rcases List.any_eq_true.mp h with ⟨r, hr, hrk⟩
  have hmem : r ∈ st.filter (fun r => decide (rowKey r = k)) :=
    List.mem_filter.mpr ⟨hr, hrk⟩
  have := List.length_pos.mpr (List.ne_nil_of_mem hmem)
  simpa [countKey] using this

theorem countKey_eq_zero_of_not_hasKey {st : Store} {k : String × Nat}
    (h : hasKey st k = false) : countKey st k = 0 := by
  unfold countKey
  rw [List.length_eq_zero]
  rw [List.filter_eq_nil_iff]
  intro r hr
  have := List.any_eq_false.mp h r hr
  simpa using this

theorem countKey_append (st1 st2 : Store) (k : String × Nat) :
    countKey (st1 ++ st2) k = countKey st1 k + countKey st2 k := by
  simp [countKey, List.filter_append]

theorem dedupInv_insertRow (st : Store) (r : Row) (h : dedupInv st) :
    dedupInv (insertRow st r) := by
  unfold insertRow
  by_cases hk : hasKey st (rowKey r) = true
  · simpa [hk] using h
  · have hk2 : hasKey st (rowKey r) = false := by
      simpa using hk
    simp only [hk2, Bool.false_eq_true, if_false]
    intro k
    rw [countKey_append]
    by_cases hkk : rowKey r = k
    · subst hkk
      rw [countKey_eq_zero_of_not_hasKey hk2]
      simp [countKey]
    · have : countKey [r] k = 0 := by
        simp [countKey, hkk]
      rw [this]
      simpa using h k

/-- C2: the store holds at most one record per `(transactionHash,
logIndex)` natural key; inserting a record whose key is already present
is a no-op — the stored row is not overwritten, the row count for the key
stays exactly 1, and (`INSERT OR IGNORE` being total) no error is raised.
The `dedupInv` hypothesis is the store invariant itself, re-established by
the last conjunct for every insertion, so it holds in every reachable
store. -/
theorem insert_is_idempotent (st : Store) (r : Row)
    (hinv : dedupInv st) (hk : hasKey st (rowKey r) = true) :
    insertRow st r = st ∧
    countKey (insertRow st r) (rowKey r) = 1 ∧
    (∀ (st0 : Store) (r0 : Row), dedupInv st0 → dedupInv (insertRow st0 r0)) := by
  have hnoop : insertRow st r = st := by
    simp [insertRow, hk]
  refine ⟨hnoop, ?_, fun st0 r0 h0 => dedupInv_insertRow st0 r0 h0⟩
  rw [hnoop]
  have h1 := countKey_pos_of_hasKey hk
  have h2 := hinv (rowKey r)
  omega

/-- Witness for C2: re-inserting the one stored Deposit row is a no-op
and leaves its key count at 1. -/
theorem insert_is_idempotent_witness :
    dedupInv [depRow 100 0 "0xt1"] ∧
    hasKey [depRow 100 0 "0xt1"] (rowKey (depRow 100 0 "0xt1")) = true ∧
    (insertRow [depRow 100 0 "0xt1"] (depRow 100 0 "0xt1") = [depRow 100 0 "0xt1"] ∧
      countKey (insertRow [depRow 100 0 "0xt1"] (depRow 100 0 "0xt1"))
        (rowKey (depRow 100 0 "0xt1")) = 1 ∧
      (∀ (st0 : Store) (r0 : Row), dedupInv st0 → dedupInv (insertRow st0 r0))) :=
  ⟨fun k => le_trans (countKey_le_length _ k) (by decide),
   by decide,
   insert_is_idempotent [depRow 100 0 "0xt1"] (depRow 100 0 "0xt1")
     (fun k => le_trans (countKey_le_length _ k) (by decide))
     (by decide)⟩

/-! ## Window sizing policy (C5) -/

/-- C5 counterexample: with `CHUNK_MAX = 50` and `MIN_CHUNK = 60` the
window can sit at 60 (after one failure), and a success then keeps it at
60 instead of the claimed `min(max, floor(60 * 1.35)) = 50`: the growth
formula of the claim does not hold for a window already above the
configured maximum. -/
theorem window_growth_counterexample :
    nextStepFailure ⟨50, 60, 5⟩ 25 = 60 ∧
    nextStepSuccess ⟨50, 60, 5⟩ 60 = 60 ∧
    min 50 (60 * 135 / 100) = 50 ∧
    (60 : Nat) ≠ 50 := by
  refine ⟨by decide, by decide, by decide, by decide⟩

/-- C5 (amended): provided the current window does not exceed the
configured maximum (which holds whenever `MIN_CHUNK ≤ CHUNK_MAX`), a
successful fetch grows the window to
`min(CHUNK_MAX, floor(step * 1.35))`, and a failed fetch always shrinks
it to `max(MIN_CHUNK, floor(step / 2))`. -/
theorem window_update_policy (cfg : ScanCfg) (step : Nat)
    (h : step ≤ cfg.chunkMax) :
    nextStepSuccess cfg step = min cfg.chunkMax (step * 135 / 100) ∧
    nextStepFailure cfg step = max cfg.minChunk (step / 2) := by
  refine ⟨?_, rfl⟩
  unfold nextStepSuccess
  split
  · rfl
  · have hstep : step = cfg.chunkMax := le_antisymm h (by omega)
    subst hstep
    rw [min_eq_left]
    have h100 : cfg.chunkMax * 100 / 100 ≤ cfg.chunkMax * 135 / 100 :=
      Nat.div_le_div_right (Nat.mul_le_mul_left _ (by norm_num))
    rwa [Nat.mul_div_cancel _ (by norm_num)] at h100

/-- Witness for C5: the default configuration at window 100. -/
theorem window_update_policy_witness :
    100 ≤ (ScanCfg.mk 2000 200 5).chunkMax ∧
    (nextStepSuccess ⟨2000, 200, 5⟩ 100 = min 2000 (100 * 135 / 100) ∧
      nextStepFailure ⟨2000, 200, 5⟩ 100 = max 200 (100 / 2)) :=
  ⟨by decide, window_update_policy ⟨2000, 200, 5⟩ 100 (by decide)⟩

/-! ## Ingest normalization (C8) -/

/-- C8: the upstream-facing normalization is only correct for the hex
representation (and for `timeStamp`, which branches on the `0x` prefix):
a decimal string is fed to `parseInt(x, 16)` and read as base-16 digits,
so the decimal representation of one thousand is stored as 4096 for
`block_number` (and 16 instead of 10 for `log_index`), while `timeStamp`
normalizes both representations to the same value. -/
theorem normalization_divergence :
    normBlockNumber [ '1', '0', '0', '0' ] = 4096 ∧
    normBlockNumber [ '0', 'x', '3', 'e', '8' ] = 1000 ∧
    normLogIndex [ '1', '0' ] = 16 ∧
    normLogIndex [ '0', 'x', 'a' ] = 10 ∧
    normTxIndex [ '1', '0' ] = some 16 ∧
    normTimeStamp (some [ '1', '0', '0', '0' ]) = some 1000 ∧
    normTimeStamp (some [ '0', 'x', '3', 'e', '8' ]) = some 1000 := by
  refine ⟨by decide, by decide, by decide, by decide, by decide, by decide, by decide⟩

/-! ## Decoded argument map (C9) -/

theorem mem_objSet {o : List (String × JsVal)} {k : String} {v : JsVal} :
    ∀ p ∈ objSet o k v, p = (k, v) ∨ p ∈ o := by
  intro p hp
  unfold objSet at hp
  split at hp
  · rcases List.mem_map.mp hp with ⟨q, hq, hmap⟩
    by_cases hqk : q.1 = k
    · left
      rw [← hmap, if_pos hqk]
    · right
      rw [← hmap, if_neg hqk]
      exact hq
  · rcases List.mem_append.mp hp with h | h
    · right
      exact h
    · left
      simpa using h

theorem argsFold_mem :
    ∀ (l acc : List (String × JsVal)),
      ∀ p ∈ l.foldl
        (fun acc p => if isDigitKey p.1 then acc else objSet acc p.1 (convertArg p.2)) acc,
      p ∈ acc ∨ ∃ q, q ∈ l ∧ isDigitKey q.1 = false ∧ p = (q.1, convertArg q.2) := by
  intro l
  induction l with
  | nil =>
    intro acc p hp
    left
    simpa using hp
  | cons q l ih =>
    intro acc p hp
    simp only [List.foldl_cons] at hp
    rcases ih _ p hp with hacc | ⟨q2, hq2, hd, hpq⟩
    · by_cases hdig : isDigitKey q.1 = true
      · rw [if_pos hdig] at hacc
        left
        exact hacc
      · rw [if_neg hdig] at hacc
        rcases mem_objSet p hacc with heq | hin
        · right
          exact ⟨q, List.mem_cons_self q l, by simpa using hdig, heq⟩
        · left
          exact hin
    · right
      exact ⟨q2, List.mem_cons_of_mem q hq2, hd, hpq⟩

/-- C9: every entry of the named-argument map built by `decodeLog` has a
non-positional key (all-digit keys are excluded), its value is the
conversion of a source argument with the same name, the conversion never
leaves a bigint in the map, and a bigint is converted to exactly its
decimal-string representation. -/
theorem decoded_args_named_and_stringified :
    ∀ (args : List (String × JsVal)), ∀ p ∈ buildArgsObj args,
      isDigitKey p.1 = false ∧
      (∃ v, (p.1, v) ∈ args ∧ p.2 = convertArg v) ∧
      (∀ i : Int, p.2 ≠ JsVal.vBigInt i) ∧
      (∀ i : Int, convertArg (JsVal.vBigInt i) = JsVal.vStr (toString i)) := by
  intro args p hp
  have hmem := argsFold_mem args [] p (by simpa [buildArgsObj] using hp)
  rcases hmem with habs | ⟨q, hq, hd, hpq⟩
  · simp at habs
  · refine ⟨by rw [hpq]; exact hd, ⟨q.2, ?_, by rw [hpq]⟩, ?_, fun i => rfl⟩
    · have : (q.1, q.2) = q := rfl
      rw [hpq]
      simpa [this] using hq
    · intro i
      rw [hpq]
      cases q.2 <;> simp [convertArg]

/-- Witness for C9: a decoded argument list with one positional entry and
one bigint-valued named entry. -/
theorem decoded_args_witness :
    ( "amount", JsVal.vStr "12345" ) ∈
      buildArgsObj [ ( "0", JsVal.vNum 1 ), ( "amount", JsVal.vBigInt 12345 ) ] ∧
    (isDigitKey "amount" = false ∧
      (∃ v, ( "amount", v ) ∈ [ ( "0", JsVal.vNum 1 ), ( "amount", JsVal.vBigInt 12345 ) ] ∧
        JsVal.vStr "12345" = convertArg v) ∧
      (∀ i : Int, JsVal.vStr "12345" ≠ JsVal.vBigInt i) ∧
      (∀ i : Int, convertArg (JsVal.vBigInt i) = JsVal.vStr (toString i))) :=
  ⟨by decide,
   decoded_args_named_and_stringified
     [ ( "0", JsVal.vNum 1 ), ( "amount", JsVal.vBigInt 12345 ) ]
     ( "amount", JsVal.vStr "12345" ) (by decide)⟩

/-! ## Query-surface limit clamping (C10) -/

theorem clampInt_bounds (v : Option (List Char)) (d lo hi : Int)
    (h1 : lo ≤ d) (h2 : d ≤ hi) :
    lo ≤ clampInt v d lo hi ∧ clampInt v d lo hi ≤ hi := by
  cases v with
  | none =>
    simp only [clampInt]
    exact ⟨h1, h2⟩
  | some s =>
    cases h : jsNumberFloored s with
    | none =>
      simp only [clampInt, h]
      exact ⟨h1, h2⟩
    | some n =>
      simp only [clampInt, h]
      exact ⟨le_max_left _ _, max_le (le_trans h1 h2) (min_le_left _ _)⟩

/-- C10: the effective result limit of each endpoint is clamped to its
bounded range whatever the client sends — `/api/deposits` to `[1, 200]`
with default 18, `/api/events` to `[1, 500]` with default 100; a missing
or non-numeric `limit` falls back to the default, and a response never
holds more rows than the endpoint's cap. -/
theorem api_limit_clamped :
    ∀ (st : Store) (name : String) (v : Option (List Char)),
      (1 ≤ depositsLimit v ∧ depositsLimit v ≤ 200 ∧
        1 ≤ eventsLimit v ∧ eventsLimit v ≤ 500) ∧
      ((depositsRows st v).length ≤ 200 ∧ (eventsRows st name v).length ≤ 500) ∧
      (depositsLimit none = 18 ∧ eventsLimit none = 100) ∧
      (∀ s, jsNumberFloored s = none →
        depositsLimit (some s) = 18 ∧ eventsLimit (some s) = 100) := by
  intro st name v
  have hd := clampInt_bounds v 18 1 200 (by norm_num) (by norm_num)
  have he := clampInt_bounds v 100 1 500 (by norm_num) (by norm_num)
  refine ⟨⟨hd.1, hd.2, he.1, he.2⟩, ⟨?_, ?_⟩, ⟨rfl, rfl⟩, ?_⟩
  · have hlen : (depositsRows st v).length ≤ (depositsLimit v).toNat :=
      by simp only [depositsRows, queryLatest]; exact List.length_take_le _ _
    exact le_trans hlen (Int.toNat_le.mpr hd.2)
  · have hlen : (eventsRows st name v).length ≤ (eventsLimit v).toNat :=
      by simp only [eventsRows, queryByEventName]; exact List.length_take_le _ _
    exact le_trans hlen (Int.toNat_le.mpr he.2)
  · intro s hs
    constructor <;> simp [depositsLimit, eventsLimit, clampInt, hs]

/-- Witness for C10: a non-numeric `limit` falls back to the defaults and
the caps hold on an empty store. -/
theorem api_limit_clamped_witness :
    jsNumberFloored [ 'a', 'b', 'c' ] = none ∧
    (depositsLimit (some [ 'a', 'b', 'c' ]) = 18 ∧
      eventsLimit (some [ 'a', 'b', 'c' ]) = 100) ∧
    (depositsRows [] (some [ 'a', 'b', 'c' ])).length ≤ 200 :=
  ⟨by decide,
   (api_limit_clamped [] "Deposit" (some [ 'a', 'b', 'c' ])).2.2.2
     [ 'a', 'b', 'c' ] (by decide),
   ((api_limit_clamped [] "Deposit" (some [ 'a', 'b', 'c' ])).2.1).1⟩

/-! ## Decode totality and the failure row (C6) -/

/-- C6: `decodeLog` is total — for every `(topics, data)` and every
behaviour of the external parser it returns either a named-event result
or the failure result, never an error; and when the parser fails the
caller's row keeps `event_name = null` and `decoded_json = null` while
storing the very `topics` and `data` that were passed to `decode`. -/
theorem decode_total_and_failure_row :
    (∀ (parse : List String → String → Option ParsedLog) (topics : List String) (data : String),
        decodeLog parse topics data = ⟨none, none⟩ ∨
        ∃ nm args2, decodeLog parse topics data = ⟨some nm, some args2⟩) ∧
    (∀ (parse : List String → String → Option ParsedLog) (addr : String) (lg : RawLog),
        parse (normTopics lg.topics) (normData lg.data) = none →
        (mkRow parse addr lg).event_name = none ∧
        (mkRow parse addr lg).decoded_json = none ∧
        (mkRow parse addr lg).topics_json = normTopics lg.topics ∧
        (mkRow parse addr lg).data = normData lg.data) := by
  constructor
  · intro parse topics data
    cases h : parse topics data with
    | none =>
      left
      simp [decodeLog, h]
    | some p =>
      right
      exact ⟨p.name, buildArgsObj p.args, by simp [decodeLog, h]⟩
  · intro parse addr lg h
    refine ⟨?_, ?_, rfl, rfl⟩ <;> simp [mkRow, decodeLog, h]

/-- Witness for C6: the literal scenario — an unknown topic0 with data
`0x` decodes to the failure result and is stored as a null-decoded row
with topics and data preserved. -/
theorem decode_failure_witness :
    (fun _ _ => none : List String → String → Option ParsedLog)
        (normTopics unknownLog.topics) (normData unknownLog.data) = none ∧
    ((mkRow (fun _ _ => none) "0xC" unknownLog).event_name = none ∧
      (mkRow (fun _ _ => none) "0xC" unknownLog).decoded_json = none ∧
      (mkRow (fun _ _ => none) "0xC" unknownLog).topics_json = normTopics unknownLog.topics ∧
      (mkRow (fun _ _ => none) "0xC" unknownLog).data = normData unknownLog.data) :=
  ⟨rfl, decode_total_and_failure_row.2 (fun _ _ => none) "0xC" unknownLog rfl⟩

/-! ## Ordering of latest queries (C7) -/

theorem latestLe_trans :
    ∀ a b c : Row, latestLe a b = true → latestLe b c = true → latestLe a c = true := by
  intro a b c hab hbc
  simp only [latestLe, decide_eq_true_eq] at hab hbc ⊢
  omega

theorem latestLe_total : ∀ a b : Row, latestLe a b = true ∨ latestLe b a = true := by
  intro a b
  simp only [latestLe, decide_eq_true_eq]
  omega

theorem mem_insertByLatest {x r : Row} :
    ∀ {l : List Row}, x ∈ insertByLatest r l → x = r ∨ x ∈ l := by
  intro l
  induction l with
  | nil =>
    intro hx
    left
    simpa [insertByLatest] using hx
  | cons a l ih =>
    intro hx
    unfold insertByLatest at hx
    split at hx
    · rcases List.mem_cons.mp hx with h | h
      · left
        exact h
      · right
        exact h
    · rcases List.mem_cons.mp hx with h | h
      · right
        rw [h]
        exact List.mem_cons_self a l
      · rcases ih h with h2 | h2
        · left
          exact h2
        · right
          exact List.mem_cons_of_mem a h2

theorem length_insertByLatest (r : Row) :
    ∀ l : List Row, (insertByLatest r l).length = l.length + 1 := by
  intro l
  induction l with
  | nil => rfl
  | cons a l ih =>
    unfold insertByLatest
    split
    · simp
    · simp [ih]

theorem length_sortByLatest : ∀ l : List Row, (sortByLatest l).length = l.length := by
  intro l
  induction l with
  | nil => rfl
  | cons a l ih => simp [sortByLatest, length_insertByLatest, ih]

theorem pairwise_insertByLatest (r : Row) :
    ∀ l : List Row, List.Pairwise (fun a b => latestLe a b = true) l →
      List.Pairwise (fun a b => latestLe a b = true) (insertByLatest r l) := by
  intro l
  induction l with
  | nil =>
    intro _
    simp [insertByLatest]
  | cons a l ih =>
    intro h
    rcases List.pairwise_cons.mp h with ⟨ha, hl⟩
    unfold insertByLatest
    split
    · rename_i hra
      refine List.pairwise_cons.mpr ⟨?_, h⟩
      intro x hx
      rcases List.mem_cons.mp hx with h2 | h2
      · subst h2
        exact hra
      · exact latestLe_trans r a x hra (ha x h2)
    · rename_i hra
      have har : latestLe a r = true := by
        rcases latestLe_total a r with h2 | h2
        · exact h2
        · exact absurd h2 hra
      refine List.pairwise_cons.mpr ⟨?_, ih hl⟩
      intro x hx
      rcases mem_insertByLatest hx with h2 | h2
      · subst h2
        exact har
      · exact ha x h2

theorem pairwise_sortByLatest :
    ∀ l : List Row, List.Pairwise (fun a b => latestLe a b = true) (sortByLatest l) := by
  intro l
  induction l with
  | nil => simp [sortByLatest]
  | cons a l ih => exact pairwise_insertByLatest a _ ih

/-- C7: `queryLatest n` (and `queryByEventName`) returns exactly `n`
records — or all matching records if the store holds fewer — sorted
descending by `(block_number, log_index)`; on the literal scenario store
(Deposits at blocks 100/0, 100/1, 105/0), `queryLatest 2` returns the
rows at 105/0 then 100/1. -/
theorem query_latest_ordered :
    ∀ (st : Store) (n : Nat),
      ((queryLatest st n).length =
          min n (st.filter (fun r => decide (r.event_name = some "Deposit"))).length ∧
        List.Pairwise (fun a b => latestLe a b = true) (queryLatest st n)) ∧
      (∀ name : String,
        (queryByEventName st name n).length =
          min n (st.filter (fun r => decide (r.event_name = some name))).length ∧
        List.Pairwise (fun a b => latestLe a b = true) (queryByEventName st name n)) ∧
      queryLatest depositScenario 2 = [ depRow 105 0 "0xt3", depRow 100 1 "0xt2" ] := by
  intro st n
  refine ⟨⟨?_, ?_⟩, fun name => ⟨?_, ?_⟩, by decide⟩
  · simp [queryLatest, List.length_take, length_sortByLatest]
  · exact List.Pairwise.sublist (List.take_sublist _ _) (pairwise_sortByLatest _)
  · simp [queryByEventName, List.length_take, length_sortByLatest]
  · exact List.Pairwise.sublist (List.take_sublist _ _) (pairwise_sortByLatest _)

/-! ## Adaptive scanning lemmas -/

theorem one_le_nextStepSuccess (cfg : ScanCfg) {step : Nat} (h : 1 ≤ step) :
    1 ≤ nextStepSuccess cfg step := by
  unfold nextStepSuccess
  split
  · refine le_min (by omega) ?_
    have h135 : 1 * 135 / 100 ≤ step * 135 / 100 :=
      Nat.div_le_div_right (Nat.mul_le_mul_right _ h)
    exact le_trans (by norm_num) h135
  · exact h

theorem one_le_nextStepFailure (cfg : ScanCfg) (h : 1 ≤ cfg.minChunk) (step : Nat) :
    1 ≤ nextStepFailure cfg step :=
  le_trans h (le_max_left _ _)

theorem covers_mem :
    ∀ (ws : List (Nat × Nat)) (lo hi b : Nat), covers lo hi ws = true →
      lo ≤ b → b ≤ hi → ∃ w ∈ ws, w.1 ≤ b ∧ b ≤ w.2 := by
  intro ws
  induction ws with
  | nil =>
    intro lo hi b hc hlb hbh
    simp only [covers, decide_eq_true_eq] at hc
    omega
  | cons w ws ih =>
    intro lo hi b hc hlb hbh
    obtain ⟨a, c⟩ := w
    simp only [covers, Bool.and_eq_true, decide_eq_true_eq] at hc
    obtain ⟨⟨⟨hal, hac⟩, hch⟩, hrest⟩ := hc
    by_cases hbc : b ≤ c
    · exact ⟨(a, c), List.mem_cons_self _ _, by omega, hbc⟩
    · obtain ⟨w2, hw2, hw2b⟩ := ih (c + 1) hi b hrest (by omega) hbh
      exact ⟨w2, List.mem_cons_of_mem _ hw2, hw2b⟩

theorem scanGo_covers (env : Env) (cfg : ScanCfg) (toBlock : Nat)
    (hmc : 1 ≤ cfg.minChunk) :
    ∀ (fuel t start step : Nat) (st stf : Store) (ws : List (Nat × Nat)),
      1 ≤ step →
      scanGo env cfg toBlock fuel t start step st = some (stf, ws) →
      covers start toBlock ws = true := by
  intro fuel
  induction fuel with
  | zero =>
    intro t start step st stf ws h1 h
    simp [scanGo] at h
  | succ fuel ih =>
    intro t start step st stf ws h1 h
    simp only [scanGo] at h
    by_cases hle : start ≤ toBlock
    · rw [if_pos hle] at h
      split at h
      · rename_i raws ho
        split at h
        · rename_i stf2 ws2 hrec
          simp only [Option.some.injEq, Prod.mk.injEq] at h
          obtain ⟨hstf, hws⟩ := h
          rw [← hws]
          simp only [covers, Bool.and_eq_true, decide_eq_true_eq]
          refine ⟨⟨⟨trivial, by omega⟩, by omega⟩, ?_⟩
          exact ih (t + 1) _ _ _ _ _ (one_le_nextStepSuccess cfg h1) hrec
        · exact absurd h (by simp)
      · rename_i ho
        exact ih (t + 1) start (nextStepFailure cfg step) st stf ws
          (one_le_nextStepFailure cfg hmc step) h
    · rw [if_neg hle] at h
      simp only [Option.some.injEq, Prod.mk.injEq] at h
      obtain ⟨hst, hws⟩ := h
      rw [← hws]
      simp only [covers, decide_eq_true_eq]
      omega

/-- C3: the adaptive scan absorbs every upstream failure — a failed
window shrinks the step and retries the very same cursor position — and
whenever the scan terminates, its successful windows tile the requested
range `[fromBlock, toBlock]` exactly, so every block of the range is
covered by some successful request and none is skipped. -/
theorem scan_covers_and_retries :
    (∀ (env : Env) (cfg : ScanCfg) (fuel fromBlock toBlock : Nat) (st stf : Store)
        (ws : List (Nat × Nat)),
        1 ≤ cfg.chunkMax → 1 ≤ cfg.minChunk → fromBlock ≤ toBlock →
        scanRange env cfg fuel fromBlock toBlock st = some (stf, ws) →
        covers fromBlock toBlock ws = true ∧
        ∀ b, fromBlock ≤ b → b ≤ toBlock → ∃ w ∈ ws, w.1 ≤ b ∧ b ≤ w.2) ∧
    (∀ (env : Env) (cfg : ScanCfg) (toBlock fuel t start step : Nat) (st : Store),
        start ≤ toBlock →
        env.oracle t start (min (start + step - 1) toBlock) = .err →
        scanGo env cfg toBlock (fuel + 1) t start step st =
          scanGo env cfg toBlock fuel (t + 1) start (nextStepFailure cfg step) st) := by
  constructor
  · intro env cfg fuel fromBlock toBlock st stf ws hch hmc hfr h
    have hstep : 1 ≤ min cfg.chunkMax (toBlock + 1 - fromBlock) :=
      le_min hch (by omega)
    have hcov := scanGo_covers env cfg toBlock hmc fuel 0 fromBlock
      (min cfg.chunkMax (toBlock + 1 - fromBlock)) st stf ws hstep
      (by simpa [scanRange] using h)
    exact ⟨hcov, fun b hb1 hb2 => covers_mem ws fromBlock toBlock b hcov hb1 hb2⟩
  · intro env cfg toBlock fuel t start step st hle ho
    simp only [scanGo, if_pos hle, ho]

/-- Witness for C3: the literal spec scenario — range `[1000, 1999]`,
max window 500, upstream rate-limiting every window above 200 blocks —
terminates and covers the whole range with five windows of 200. -/
theorem scan_covers_witness :
    1 ≤ (ScanCfg.mk 500 200 5).chunkMax ∧
    1 ≤ (ScanCfg.mk 500 200 5).minChunk ∧
    (1000 : Nat) ≤ 1999 ∧
    scanRange scenarioEnv ⟨500, 200, 5⟩ 40 1000 1999 [] = some ([], scenarioWins) ∧
    (covers 1000 1999 scenarioWins = true ∧
      ∀ b, 1000 ≤ b → b ≤ 1999 → ∃ w ∈ scenarioWins, w.1 ≤ b ∧ b ≤ w.2) :=
  ⟨by decide, by decide, by decide, by decide,
   scan_covers_and_retries.1 scenarioEnv ⟨500, 200, 5⟩ 40 1000 1999 [] [] scenarioWins
     (by decide) (by decide) (by decide) (by decide)⟩

/-! ## Window threshold convergence (C4) -/

theorem stepAfterFailures_succ (cfg : ScanCfg) (k s : Nat) :
    stepAfterFailures cfg (k + 1) s = nextStepFailure cfg (stepAfterFailures cfg k s) := by
  induction k generalizing s with
  | zero => rfl
  | succ k ih =>
    rw [show stepAfterFailures cfg (k + 1 + 1) s =
        stepAfterFailures cfg (k + 1) (nextStepFailure cfg s) from rfl, ih]
    rfl

theorem max_div_right (a b c : Nat) : max a b / c = max (a / c) (b / c) := by
  rcases le_total a b with h | h
  · rw [max_eq_right h, max_eq_right (Nat.div_le_div_right h)]
  · rw [max_eq_left h, max_eq_left (Nat.div_le_div_right h)]

theorem stepAfterFailures_eq (cfg : ScanCfg) :
    ∀ k s, stepAfterFailures cfg (k + 1) s = max cfg.minChunk (s / 2 ^ (k + 1)) := by
  intro k
  induction k with
  | zero =>
    intro s
    simp [stepAfterFailures, nextStepFailure, pow_one]
  | succ k ih =>
    intro s
    rw [show stepAfterFailures cfg (k + 1 + 1) s =
        stepAfterFailures cfg (k + 1) (nextStepFailure cfg s) from rfl, ih]
    unfold nextStepFailure
    rw [max_div_right, ← max_assoc, max_eq_left (Nat.div_le_self _ _),
      Nat.div_div_eq_div_mul, ← pow_succ']

/-- C4 counterexample: with `MIN_CHUNK = 200` and a threshold `T = 50`
below it, the failure update fixes the window at 200 — the scanner
retries the same too-large window forever (the 50-fuel run never
finishes), refuting "for every threshold T". -/
theorem window_threshold_counterexample :
    (¬ ∀ (cfg : ScanCfg) (T s0 : Nat), ∃ k, stepAfterFailures cfg k s0 ≤ T) ∧
    scanRange stuckEnv ⟨500, 200, 5⟩ 50 1000 1999 [] = none := by
  constructor
  · intro hall
    obtain ⟨k, hk⟩ := hall ⟨500, 200, 5⟩ 50 200
    have hfix : ∀ j, stepAfterFailures ⟨500, 200, 5⟩ j 200 = 200 := by
      intro j
      induction j with
      | zero => rfl
      | succ j ih =>
        rw [stepAfterFailures_succ, ih]
        decide
    rw [hfix k] at hk
    omega
  · decide

theorem scanGo_terminates (env : Env) (cfg : ScanCfg) (toBlock T : Nat)
    (hmc : 1 ≤ cfg.minChunk) (hmT : cfg.minChunk ≤ T)
    (hok : ∀ t s e, e + 1 - s ≤ T → env.oracle t s e ≠ .err) :
    ∀ (B μ t start step : Nat) (st : Store),
      1 ≤ step → step ≤ B → cfg.chunkMax ≤ B → cfg.minChunk ≤ B →
      (toBlock + 1 - start) * (B + 1) + step ≤ μ →
      ∃ fuel stf ws, scanGo env cfg toBlock fuel t start step st = some (stf, ws) := by
  intro B μ
  induction μ with
  | zero =>
    intro t start step st h1 hB hcB hmB hμ
    have hstep : step ≤ 0 := le_trans (Nat.le_add_left step _) hμ
    omega
  | succ μ ih =>
    intro t start step st h1 hB hcB hmB hμ
    by_cases hle : start ≤ toBlock
    · set e := min (start + step - 1) toBlock with he
      cases ho : env.oracle t start e with
      | ok raws =>
        have h1s : 1 ≤ nextStepSuccess cfg step := one_le_nextStepSuccess cfg h1
        have hBs : nextStepSuccess cfg step ≤ B := by
          unfold nextStepSuccess
          split
          · exact le_trans (min_le_left _ _) hcB
          · exact hB
        have hmeas : (toBlock + 1 - (e + 1)) * (B + 1) + nextStepSuccess cfg step ≤ μ := by
          have hlt : (toBlock + 1 - (e + 1)) + 1 ≤ toBlock + 1 - start := by omega
          have hmul : ((toBlock + 1 - (e + 1)) + 1) * (B + 1) ≤ (toBlock + 1 - start) * (B + 1) :=
            Nat.mul_le_mul_right _ hlt
          rw [add_mul, one_mul] at hmul
          generalize hq1 : (toBlock + 1 - (e + 1)) * (B + 1) = P1 at hmul ⊢
          generalize hq2 : (toBlock + 1 - start) * (B + 1) = P2 at hmul hμ
          omega
        obtain ⟨fuel, stf, ws, hrec⟩ := ih (t + 1) (e + 1) (nextStepSuccess cfg step)
          (insertMany st (raws.map (mkRow env.parse env.contractAddress))) h1s hBs hcB hmB hmeas
        refine ⟨fuel + 1, stf, (start, e) :: ws, ?_⟩
        simp only [scanGo, if_pos hle, ← he, ho, hrec]
      | err =>
        have hbig : T < e + 1 - start := by
          by_contra hsmall
          push_neg at hsmall
          exact hok t start e (by omega) ho
        have hTstep : T < step := by omega
        have hflt : nextStepFailure cfg step < step := by
          unfold nextStepFailure
          omega
        have hf1 : 1 ≤ nextStepFailure cfg step := one_le_nextStepFailure cfg hmc step
        have hfB : nextStepFailure cfg step ≤ B := le_trans (le_of_lt hflt) hB
        have hmeas : (toBlock + 1 - start) * (B + 1) + nextStepFailure cfg step ≤ μ := by
          generalize hq : (toBlock + 1 - start) * (B + 1) = P at hμ ⊢
          omega
        obtain ⟨fuel, stf, ws, hrec⟩ := ih (t + 1) start (nextStepFailure cfg step) st
          hf1 hfB hcB hmB hmeas
        refine ⟨fuel + 1, stf, ws, ?_⟩
        simp only [scanGo, if_pos hle, ← he, ho]
        exact hrec
    · exact ⟨1, st, [], by simp [scanGo, hle]⟩

/-- C4 (amended): for every threshold `T` at or above the configured
minimum window `MIN_CHUNK`, the window size under consecutive failures
reaches a value `≤ T` within `s0` failure retries (it equals
`max(MIN_CHUNK, s0 / 2^k)` after `k ≥ 1` of them), stays `≤ T` from then
on, and a scan against an upstream that succeeds on every window of at
most `T` blocks terminates — it is never stuck retrying one too-large
window forever. -/
theorem window_threshold_convergence :
    ∀ (cfg : ScanCfg) (T s0 : Nat), cfg.minChunk ≤ T →
      (stepAfterFailures cfg s0 s0 ≤ T ∧
        ∀ j, stepAfterFailures cfg j s0 ≤ T → stepAfterFailures cfg (j + 1) s0 ≤ T) ∧
      (∀ (env : Env) (toBlock t start step : Nat) (st : Store),
          1 ≤ cfg.minChunk → 1 ≤ step →
          (∀ t2 s e, e + 1 - s ≤ T → env.oracle t2 s e ≠ .err) →
          ∃ fuel stf ws, scanGo env cfg toBlock fuel t start step st = some (stf, ws)) := by
  intro cfg T s0 hT
  refine ⟨⟨?_, ?_⟩, ?_⟩
  · cases s0 with
    | zero => exact Nat.zero_le T
    | succ n =>
      rw [stepAfterFailures_eq, Nat.div_eq_of_lt (Nat.lt_two_pow _)]
      exact max_le hT (Nat.zero_le T)
  · intro j hj
    rw [stepAfterFailures_succ]
    unfold nextStepFailure
    exact max_le hT (le_trans (Nat.div_le_self _ _) hj)
  · intro env toBlock t start step st hmc1 h1 hokk
    exact scanGo_terminates env cfg toBlock T hmc1 hT hokk
      (max step (max cfg.chunkMax cfg.minChunk))
      ((toBlock + 1 - start) * (max step (max cfg.chunkMax cfg.minChunk) + 1) + step)
      t start step st h1 (le_max_left _ _)
      (le_trans (le_max_left _ _) (le_max_right _ _))
      (le_trans (le_max_right _ _) (le_max_right _ _)) (le_refl _)

/-- Witness for C4: the default-like configuration with threshold 200
converges from window 500, and the literal scenario scan terminates. -/
theorem window_threshold_convergence_witness :
    (ScanCfg.mk 500 200 5).minChunk ≤ 200 ∧
    stepAfterFailures ⟨500, 200, 5⟩ 500 500 ≤ 200 ∧
    (∃ fuel stf ws, scanGo scenarioEnv ⟨500, 200, 5⟩ 1999 fuel 0 1000 500 [] = some (stf, ws)) :=
  ⟨by decide,
   ((window_threshold_convergence ⟨500, 200, 5⟩ 200 500 (by decide)).1).1,
   (window_threshold_convergence ⟨500, 200, 5⟩ 200 500 (by decide)).2 scenarioEnv 1999 0 1000 500 []
     (by decide) (by decide)
     (fun t2 s e hse => by
        show (if e + 1 - s ≤ 200 then FetchOutcome.ok [] else FetchOutcome.err) ≠ FetchOutcome.err
        rw [if_pos hse]
        exact fun hcontra => FetchOutcome.noConfusion hcontra)⟩

/-! ## Checkpoint monotonicity and durability (C1) -/

theorem hasKey_insertRow {st : Store} {k : String × Nat} (r : Row)
    (h : hasKey st k = true) : hasKey (insertRow st r) k = true := by
  unfold insertRow
  split
  · exact h
  · unfold hasKey at h ⊢
    rw [List.any_append]
    simp [h]

theorem hasKey_insertRow_self (st : Store) (r : Row) :
    hasKey (insertRow st r) (rowKey r) = true := by
  unfold insertRow
  split
  · rename_i h
    exact h
  · unfold hasKey
    rw [List.any_append]
    simp [hasKey]

theorem hasKey_insertMany {st : Store} {k : String × Nat} (rs : List Row)
    (h : hasKey st k = true) : hasKey (insertMany st rs) k = true := by
  induction rs generalizing st with
  | nil => exact h
  | cons r rs ih => exact ih (hasKey_insertRow r h)

theorem hasKey_insertMany_of_mem {st : Store} {r : Row} (rs : List Row) (h : r ∈ rs) :
    hasKey (insertMany st rs) (rowKey r) = true := by
  induction rs generalizing st with
  | nil => cases h
  | cons r0 rs ih =>
    rcases List.mem_cons.mp h with h0 | h0
    · subst h0
      exact hasKey_insertMany rs (hasKey_insertRow_self st r)
    · exact ih h0

theorem scanGo_hasKey_mono (env : Env) (cfg : ScanCfg) (toBlock : Nat) :
    ∀ (fuel t start step : Nat) (st stf : Store) (ws : List (Nat × Nat)) (k : String × Nat),
      scanGo env cfg toBlock fuel t start step st = some (stf, ws) →
      hasKey st k = true → hasKey stf k = true := by
  intro fuel
  induction fuel with
  | zero =>
    intro t start step st stf ws k h hk
    simp [scanGo] at h
  | succ fuel ih =>
    intro t start step st stf ws k h hk
    simp only [scanGo] at h
    by_cases hle : start ≤ toBlock
    · rw [if_pos hle] at h
      split at h
      · rename_i raws ho
        split at h
        · rename_i stf2 ws2 hrec
          simp only [Option.some.injEq, Prod.mk.injEq] at h
          obtain ⟨h1, h2⟩ := h
          rw [← h1]
          exact ih _ _ _ _ _ _ k hrec (hasKey_insertMany _ hk)
        · exact absurd h (by simp)
      · rename_i ho
        exact ih _ _ _ _ _ _ k h hk
    · rw [if_neg hle] at h
      simp only [Option.some.injEq, Prod.mk.injEq] at h
      obtain ⟨h1, h2⟩ := h
      rw [← h1]
      exact hk

theorem mem_chainRange (chain : Nat → List RawLog) {b s e : Nat} {r : RawLog}
    (hs : s ≤ b) (hb : b ≤ e) (hr : r ∈ chain b) : r ∈ chainRange chain s e := by
  unfold chainRange
  rw [List.mem_flatMap]
  exact ⟨b, List.mem_range'_1.mpr ⟨hs, by omega⟩, hr⟩

theorem scanGo_inserts (env : Env) (cfg : ScanCfg) (toBlock : Nat)
    (chain : Nat → List RawLog) (hh : honest env chain) :
    ∀ (fuel t start step : Nat) (st stf : Store) (ws : List (Nat × Nat)),
      scanGo env cfg toBlock fuel t start step st = some (stf, ws) →
      ∀ b, start ≤ b → b ≤ toBlock → ∀ r ∈ chain b,
        hasKey stf (rowKey (mkRow env.parse env.contractAddress r)) = true := by
  intro fuel
  induction fuel with
  | zero =>
    intro t start step st stf ws h
    simp [scanGo] at h
  | succ fuel ih =>
    intro t start step st stf ws h b hb1 hb2 r hr
    simp only [scanGo] at h
    by_cases hle : start ≤ toBlock
    · rw [if_pos hle] at h
      split at h
      · rename_i raws ho
        have hraws : raws = chainRange chain start (min (start + step - 1) toBlock) :=
          hh _ _ _ _ ho
        split at h
        · rename_i stf2 ws2 hrec
          simp only [Option.some.injEq, Prod.mk.injEq] at h
          obtain ⟨h1, _⟩ := h
          rw [← h1]
          by_cases hbe : b ≤ min (start + step - 1) toBlock
          · have hmem : mkRow env.parse env.contractAddress r ∈
                raws.map (mkRow env.parse env.contractAddress) := by
              rw [hraws]
              exact List.mem_map_of_mem _ (mem_chainRange chain hb1 hbe hr)
            exact scanGo_hasKey_mono env cfg toBlock fuel _ _ _ _ _ _ _ hrec
              (hasKey_insertMany_of_mem _ hmem)
          · push_neg at hbe
            exact ih _ _ _ _ _ _ hrec b (by omega) hb2 r hr
        · exact absurd h (by simp)
      · rename_i ho
        exact ih _ _ _ _ _ _ h b hb1 hb2 r hr
    · omega

theorem syncOuter_spec (env : Env) (cfg : ScanCfg) (chain : Nat → List RawLog)
    (head : Nat) (hh : honest env chain) (hW : 1 ≤ cfg.chunkMax) :
    ∀ (fuel start : Nat) (st st1 : IndexState),
      syncOuter env cfg head fuel start st = some st1 →
      st.lastBlock ≤ start + cfg.chunkMax →
      st.lastBlock ≤ head + 1 →
      (start ≤ st.lastBlock ∨ head < start) →
      upToDate env chain st →
      st.lastBlock ≤ st1.lastBlock ∧ st1.lastBlock ≤ head + 1 ∧ upToDate env chain st1 := by
  intro fuel
  induction fuel with
  | zero =>
    intro start st st1 h
    simp [syncOuter] at h
  | succ fuel ih =>
    intro start st st1 h h1 h2 h3 hupd
    simp only [syncOuter] at h
    by_cases hle : start ≤ head
    · rw [if_pos hle] at h
      split at h
      · rename_i logs1 ws2 hscan
        set e := min (start + cfg.chunkMax - 1) head with he
        have hnew : upToDate env chain ⟨logs1, e + 1⟩ := by
          intro b hb r hr
          have hb2 : b < e + 1 := hb
          show hasKey logs1 (rowKey (mkRow env.parse env.contractAddress r)) = true
          by_cases hbold : b < st.lastBlock
          · exact scanGo_hasKey_mono env cfg e fuel 0 start _ st.logs logs1 _ _ hscan
              (hupd b hbold r hr)
          · have hstart_b : start ≤ b := by
              rcases h3 with h3 | h3
              · omega
              · omega
            exact scanGo_inserts env cfg e chain hh fuel 0 start _ st.logs logs1 _ hscan
              b hstart_b (by omega) r hr
        have hrec := ih (start + cfg.chunkMax) ⟨logs1, e + 1⟩ st1 h
          (by show e + 1 ≤ start + cfg.chunkMax + cfg.chunkMax; omega)
          (by show e + 1 ≤ head + 1; omega)
          (by show start + cfg.chunkMax ≤ e + 1 ∨ head < start + cfg.chunkMax; omega)
          hnew
        obtain ⟨ha, hb2, hc⟩ := hrec
        have hmid : st.lastBlock ≤ e + 1 := by omega
        exact ⟨le_trans hmid ha, hb2, hc⟩
      · exact absurd h (by simp)
    · rw [if_neg hle] at h
      simp only [Option.some.injEq] at h
      rw [← h]
      exact ⟨le_refl _, h2, hupd⟩

theorem syncOnce_spec (env : Env) (cfg : ScanCfg) (chain : Nat → List RawLog)
    (hh : honest env chain) (hW : 1 ≤ cfg.chunkMax) (hOW : cfg.overlap ≤ cfg.chunkMax) :
    ∀ (head fuel : Nat) (st st1 : IndexState),
      syncOnce env cfg head fuel st = some st1 →
      st.lastBlock ≤ head + 1 →
      upToDate env chain st →
      st.lastBlock ≤ st1.lastBlock ∧ st1.lastBlock ≤ head + 1 ∧ upToDate env chain st1 := by
  intro head fuel st st1 h hhd hupd
  simp only [syncOnce] at h
  by_cases hguard : head < st.lastBlock - cfg.overlap
  · rw [if_pos hguard] at h
    simp only [Option.some.injEq] at h
    rw [← h]
    exact ⟨le_refl _, hhd, hupd⟩
  · rw [if_neg hguard] at h
    exact syncOuter_spec env cfg chain head hh hW fuel (st.lastBlock - cfg.overlap) st st1 h
      (by omega) hhd (Or.inl (by omega)) hupd

/-- C1 counterexample: the checkpoint is not monotone over arbitrary pass
sequences — after a pass that saw head 999 set the checkpoint to 1000, a
pass that observes head 996 (below checkpoint − 1, e.g. a lagging
upstream node) re-runs from `1000 − OVERLAP = 995` and persists
`last_block = 997 < 1000`. -/
theorem checkpoint_decrease_counterexample :
    runPasses trivEnv ⟨50, 10, 5⟩ 25 [ 999 ] ⟨[], 0⟩ = some ⟨[], 1000⟩ ∧
    syncOnce trivEnv ⟨50, 10, 5⟩ 996 25 ⟨[], 1000⟩ = some ⟨[], 997⟩ ∧
    ¬ (1000 : Nat) ≤ 997 := by
  refine ⟨by decide, by decide, by omega⟩

/-- C1 (amended): over any sequence of sync passes whose observed heads
are non-decreasing and start at or above `checkpoint − 1` (and with
`OVERLAP ≤ CHUNK_MAX`, true for the defaults 5 and ≥ 50), the persisted
`last_block` checkpoint never decreases; moreover the store stays up to
date: every checkpoint value ever persisted — intermediate ones included,
by the per-window spec this theorem is built from — is only written after
the logs of every block below it have been durably inserted, so the
checkpoint is never advanced past a block range whose logs were not
inserted first. -/
theorem checkpoint_monotone_and_durable :
    ∀ (env : Env) (chain : Nat → List RawLog) (cfg : ScanCfg) (heads : List Nat)
      (fuel : Nat) (st st1 : IndexState),
      honest env chain → 1 ≤ cfg.chunkMax → cfg.overlap ≤ cfg.chunkMax →
      List.Chain' (fun a b => a ≤ b) heads →
      (∀ h0, heads.head? = some h0 → st.lastBlock ≤ h0 + 1) →
      upToDate env chain st →
      runPasses env cfg fuel heads st = some st1 →
      st.lastBlock ≤ st1.lastBlock ∧ upToDate env chain st1 := by
  intro env chain cfg heads
  induction heads with
  | nil =>
    intro fuel st st1 _ _ _ _ _ hupd h
    simp only [runPasses, Option.some.injEq] at h
    rw [← h]
    exact ⟨le_refl _, hupd⟩
  | cons hd hs ih =>
    intro fuel st st1 hh hW hOW hchain hfirst hupd h
    simp only [runPasses] at h
    split at h
    · rename_i st2 hsync
      have hspec := syncOnce_spec env cfg chain hh hW hOW hd fuel st st2 hsync
        (hfirst hd rfl) hupd
      have hchain2 : List.Chain' (fun a b => a ≤ b) hs := hchain.tail
      have hfirst2 : ∀ h0, hs.head? = some h0 → st2.lastBlock ≤ h0 + 1 := by
        intro h0 hh0
        have hrel : hd ≤ h0 := by
          cases hs with
          | nil => exact absurd hh0 (by simp)
          | cons b t =>
            have hb : b = h0 := by
              simpa using hh0
            rw [← hb]
            exact (List.chain'_cons.mp hchain).1
        exact le_trans hspec.2.1 (by omega)
      have hrest := ih fuel st2 st1 hh hW hOW hchain2 hfirst2 hspec.2.2 h
      exact ⟨le_trans hspec.1 hrest.1, hrest.2⟩
    · exact absurd h (by simp)

theorem chainRange_empty (s e : Nat) : chainRange (fun _ => []) s e = [] := by
  unfold chainRange
  generalize List.range' s (e + 1 - s) = L
  induction L with
  | nil => rfl
  | cons a L ih => simp [List.flatMap_cons, ih]

theorem trivEnv_honest : honest trivEnv (fun _ => []) := by
  intro t s e l h
  have h2 : FetchOutcome.ok ([] : List RawLog) = FetchOutcome.ok l := h
  injection h2 with h3
  rw [← h3, chainRange_empty]

/-- Witness for C1: a single pass from a fresh state against an empty
chain advances the checkpoint from 0 to 6 and keeps the store up to
date. -/
theorem checkpoint_monotone_witness :
    runPasses trivEnv ⟨50, 10, 5⟩ 10 [ 5 ] ⟨[], 0⟩ = some ⟨[], 6⟩ ∧
    ((⟨[], 0⟩ : IndexState).lastBlock ≤ (⟨[], 6⟩ : IndexState).lastBlock ∧
      upToDate trivEnv (fun _ => []) ⟨[], 6⟩) :=
  ⟨by decide,
   checkpoint_monotone_and_durable trivEnv (fun _ => []) ⟨50, 10, 5⟩ [ 5 ] 10 ⟨[], 0⟩ ⟨[], 6⟩
     trivEnv_honest (by decide) (by decide) (by simp)
     (fun h0 hh0 => by
        injection hh0 with h3
        exact Nat.zero_le _)
     (fun b hb => absurd hb (Nat.not_lt_zero b))
     (by decide)⟩

end DollarDex
